import Mathlib

/-!
# Verification of the StudyPal subtitle segmentation engine

Shallow embedding of the segmentation core of the repository
(`src/blocks.py`, the block-reload part of `src/interface.py`, and
`format_time` from `src/utils.py`), together with theorems settling the
frozen claims about it.

Modelling conventions:
* Python floats (cue start times, durations) are modelled as `ℚ`; none of
  the claims depends on floating-point rounding.
* Python strings are modelled as Lean `String`; the Python string methods
  used by the code (`strip`, `split`, `join`, `capitalize`, `lower`,
  slicing, `isalnum`) are defined below over the character list.
* A Python dict field that may be absent and is always read through
  `.get(key, default)` is modelled as an `Option` (cue `duration`, cue
  `text`) or as the default value itself when every reader defaults it
  (`is_youtube_chapter`, which no code path ever sets, is modelled as a
  `Bool` field that block constructors set to `false`).
* The NLTK tokenizers and stop-word sets consulted by the title generator
  are external library state; they are passed in as an explicit
  environment `TitleEnv` of total functions.
* The YouTube chapter fetch (`get_youtube_chapters` /
  `get_youtube_video_chapters_api`) is a network call; the chapter list it
  produced is passed to `analyze_subtitles_into_blocks_with_chapters` as
  an explicit argument.
-/

/-! ## Python string primitives -/

/-- Python `str.strip()` on a character list: drop whitespace from both
ends. -/
def stripChars (l : List Char) : List Char :=
  ((l.dropWhile Char.isWhitespace).reverse.dropWhile Char.isWhitespace).reverse

/-- Python `str.strip()`. -/
def pyStrip (s : String) : String :=
  ⟨stripChars s.data⟩

/-- Python `sep.join(parts)`. -/
def pyJoin (sep : String) : List String → String
  | [] => ""
  | [x] => x
  | x :: y :: xs => x ++ sep ++ pyJoin sep (y :: xs)

/-- Python `str.split()` with no argument: split on whitespace runs,
discarding empty fragments. -/
def pySplitWs (s : String) : List String :=
  ((s.data.splitOnP Char.isWhitespace).map fun l => (⟨l⟩ : String)).filter (· ≠ "")

/-- Python `str.lower()`. -/
def pyLower (s : String) : String :=
  ⟨s.data.map Char.toLower⟩

/-- Python `str.capitalize()`: first character uppercased, the rest
lowercased. -/
def pyCapitalize (s : String) : String :=
  match s.data with
  | [] => ""
  | c :: cs => ⟨c.toUpper :: cs.map Char.toLower⟩

/-- Python slicing `s[:n]` for `n ≥ 0`. -/
def pyTake (s : String) (n : Nat) : String :=
  ⟨s.data.take n⟩

/-- Python `str.isalnum()`: non-empty and all characters alphanumeric. -/
def pyIsAlnum (s : String) : Bool :=
  !s.data.isEmpty && s.data.all Char.isAlphanum

/-- Python `s.startswith(pre)`. -/
def pyStartsWith (s pre : String) : Bool :=
  pre.data.isPrefixOf s.data

/-! ## Data model -/

/-- One transcript cue, as produced by the transcript source: a dict with
key `"start"` always present and keys `"duration"` and `"text"` read
through `.get("duration", 5)` / `.get("text", "")`. -/
structure Cue where
  start : ℚ
  duration : Option ℚ
  text : Option String
deriving DecidableEq

/-- `subtitle.get("duration", 5)`. -/
def Cue.dur (s : Cue) : ℚ :=
  s.duration.getD 5

/-- `subtitle["start"] + subtitle.get("duration", 5)`: the end of a cue. -/
def cueEnd (s : Cue) : ℚ :=
  s.start + s.duration.getD 5

/-- `subtitle.get("text", "")`. -/
def cueText (s : Cue) : String :=
  s.text.getD ""

/-- One output block (`blocks.py` builds these as dicts with keys
`start_time`, `end_time`, `subtitles`, `content_text`, `title`; the key
`is_youtube_chapter` is only ever read through `.get(..., False)` and is
modelled as a `Bool` field). -/
structure Block where
  start_time : ℚ
  end_time : ℚ
  subtitles : List Cue
  content_text : String
  title : String
  is_youtube_chapter : Bool
deriving DecidableEq

/-- `current_block[0]["start"]` (with `0` standing in for the value of an
expression the source only evaluates on a non-empty list). -/
def firstStart (l : List Cue) : ℚ :=
  (l.head?.map Cue.start).getD 0

/-- `current_block[-1]["start"] + current_block[-1].get("duration", 5)`. -/
def lastEnd (l : List Cue) : ℚ :=
  (l.getLast?.map cueEnd).getD 0

/-! ## Automatic splitter (`analyze_subtitles_into_blocks`, blocks.py
lines 14-81) -/

/-- The `should_split` flag computed in the loop body (blocks.py lines
47-58): a pause of at least `min_pause_threshold` before the next cue, or
a current block of at least `max_block_size` cues (counted after the
current cue was appended). -/
def should_split (s : Cue) (next? : Option Cue) (curLen : Nat)
    (min_pause_threshold : ℚ) (max_block_size : Nat) : Bool :=
  (match next? with
    | some next =>
        decide (next.start - (s.start + s.duration.getD 5) ≥ min_pause_threshold)
    | none => false)
  || decide (curLen ≥ max_block_size)

/-- Python appends `" " + subtitle.get("text", "")` to the running block
text at each step (blocks.py line 44). -/
def spaceConcat (texts : List String) : String :=
  texts.foldl (fun acc t => acc ++ " " ++ t) ""

/-- The accumulation loop of `analyze_subtitles_into_blocks` (blocks.py
lines 41-76).  `pending` is `current_block`, `pendingText` is
`current_block_text`; the first argument is the list of cues not yet
visited.  A closed block is emitted only when its span reaches
`min_block_duration` or the current cue is the last one; an unemitted
block keeps accumulating. -/
def analyzeLoop (min_block_duration min_pause_threshold : ℚ)
    (max_block_size : Nat) :
    List Cue → List Cue → String → List Block
  | [], _, _ => []
  | s :: rest, pending, pendingText =>
    let cur := pending ++ [s]
    let curText := pendingText ++ " " ++ (s.text.getD "")
    if should_split s rest.head? cur.length min_pause_threshold max_block_size
        || rest.isEmpty then
      -- the `if current_block:` guard always holds: `cur` ends in `s`
      if decide (lastEnd cur - firstStart cur ≥ min_block_duration)
          || rest.isEmpty then
        { start_time := firstStart cur
          end_time := lastEnd cur
          subtitles := cur
          content_text := pyStrip curText
          title := ""
          is_youtube_chapter := false }
          :: analyzeLoop min_block_duration min_pause_threshold max_block_size
              rest [] ""
      else
        analyzeLoop min_block_duration min_pause_threshold max_block_size
          rest cur curText
    else
      analyzeLoop min_block_duration min_pause_threshold max_block_size
        rest cur curText

/-! ## Title generation (`generate_block_titles`, blocks.py lines
157-354) -/

/-- External NLTK state used by the title generator: the two tokenizers
and the combined stop-word set (English + Russian + the hard-coded filler
words).  Modelled as total functions: once the NLTK resources are loaded
the tokenizers do not raise. -/
structure TitleEnv where
  sent_tokenize : String → List String
  word_tokenize : String → List String
  stop_words : List String

/-- Order-preserving de-duplication (first occurrence kept), matching the
insertion order of a Python `Counter`'s keys; `seen` accumulates the
words already emitted. -/
def firstOccsAux (seen : List String) : List String → List String
  | [] => []
  | x :: xs =>
      if x ∈ seen then firstOccsAux seen xs
      else x :: firstOccsAux (x :: seen) xs

/-- The keys of `Counter(words)` in insertion order. -/
def firstOccs (l : List String) : List String :=
  firstOccsAux [] l

/-- Stable insertion for a descending-by-count order: the inserted pair
(coming earlier in the original list) goes before the first pair whose
count does not exceed its own. -/
def insertByCountDesc (p : String × Nat) :
    List (String × Nat) → List (String × Nat)
  | [] => [p]
  | q :: qs => if p.2 ≥ q.2 then p :: q :: qs else q :: insertByCountDesc p qs

/-- Stable sort by count, descending (insertion sort; any stable sort
gives the same list, and Python's `sorted(..., reverse=True)` underlying
`Counter.most_common` is stable descending). -/
def sortByCountDesc : List (String × Nat) → List (String × Nat)
  | [] => []
  | p :: ps => insertByCountDesc p (sortByCountDesc ps)

/-- `Counter(words).most_common(n)`: pairs `(word, count)` sorted by count
descending, ties kept in first-occurrence order (a stable descending
sort, which is what `heapq.nlargest` over `Counter.items()` produces). -/
def mostCommon (n : Nat) (words : List String) : List (String × Nat) :=
  (sortByCountDesc ((firstOccs words).map fun w => (w, words.count w))).take n

/-- The title composition of the enhanced-keywords method (blocks.py
lines 231-251), before the final truncation: lead phrase plus keywords,
or whichever exists, else `"Section {i+1}"`. -/
def composeEnhancedTitle (i : Nat) (first_phrase : String)
    (top_words : List String) : String :=
  if top_words ≠ [] ∧ first_phrase ≠ "" then
    let fp :=
      if first_phrase.length > 30 then pyTake first_phrase 30 ++ "..."
      else first_phrase
    let key_words :=
      if top_words ≠ [] then pyJoin ", " (top_words.take 3) else ""
    pyCapitalize fp ++ (if key_words ≠ "" then " [" ++ key_words ++ "]" else "")
  else if first_phrase ≠ "" then
    pyCapitalize first_phrase
  else if top_words ≠ [] then
    "Topic: " ++ pyJoin ", " (top_words.take 4)
  else
    "Section " ++ toString (i + 1)

/-- The final title length cap (blocks.py lines 253-255): over 70
characters, keep the first 70 and append an ellipsis. -/
def truncateTitle70 (title : String) : String :=
  if title.length > 70 then pyTake title 70 ++ "..." else title

/-- The enhanced-keywords title for one block (blocks.py lines 206-257):
lead phrase from the first sentence, top keywords, `"Section {i+1}"`
fallback, final hard truncation to 70 characters plus an ellipsis. -/
def mkEnhancedTitle (env : TitleEnv) (i : Nat) (content_text : String) :
    String :=
  let text := pyLower content_text
  let sentences := env.sent_tokenize text
  let first_sentence := sentences.head?.getD ""
  let clean_first_words :=
    ((pySplitWs first_sentence).take 7).filterMap fun w =>
      let clean_word : String := ⟨w.data.filter Char.isAlphanum⟩
      if clean_word ≠ "" ∧ clean_word.length > 1 then some clean_word else none
  let first_phrase := pyJoin " " clean_first_words
  let words :=
    ((env.word_tokenize text).filter fun w =>
        pyIsAlnum w && decide (pyLower w ∉ env.stop_words) && decide (w.length > 2)).map
      pyLower
  let top_words := ((mostCommon 4 words).filter fun p => p.2 > 1).map Prod.fst
  truncateTitle70 (composeEnhancedTitle i first_phrase top_words)

/-- Assign a per-index title to every block of a list, starting at index
`i` (Python `for i, block in enumerate(blocks)` with in-place title
assignment). -/
def titleBlocks (f : Nat → Block → String) : Nat → List Block → List Block
  | _, [] => []
  | i, b :: bs => { b with title := f i b } :: titleBlocks f (i + 1) bs

/-- The `method == "enhanced_keywords"` branch of `generate_block_titles`
(blocks.py lines 168-268) in its normal, non-raising path. -/
def enhanced_keyword_titles (env : TitleEnv) (blocks : List Block) :
    List Block :=
  titleBlocks (fun i b => mkEnhancedTitle env i b.content_text) 0 blocks

/-- The `method == "first_sentence"` branch (blocks.py lines 303-338) in
its normal path. -/
def first_sentence_titles (env : TitleEnv) (blocks : List Block) :
    List Block :=
  titleBlocks
    (fun i b =>
      match env.sent_tokenize b.content_text with
      | first_sent :: _ =>
          if first_sent.length > 60 then pyTake first_sent 60 ++ "..."
          else first_sent
      | [] =>
          "Section " ++ toString (i + 1) ++ ": "
            ++ pyJoin " " ((pySplitWs b.content_text).take 7) ++ "...")
    0 blocks

/-- The final `else` branch of `generate_block_titles` (blocks.py lines
340-352): first seven words, capitalized, with an ellipsis. -/
def simple_titles (blocks : List Block) : List Block :=
  titleBlocks
    (fun i b =>
      let first_words := pyJoin " " ((pySplitWs b.content_text).take 7)
      if first_words ≠ "" then pyCapitalize first_words ++ "..."
      else "Section " ++ toString (i + 1))
    0 blocks

/-- Python runtime errors the embedded code can raise. -/
inductive PyError where
  | nameError (name : String)
deriving DecidableEq

/-- `generate_block_titles(blocks, method)` (blocks.py lines 157-354).
The `"openai"` arm evaluates `api_status.get("openai", False)` in its
condition, but `blocks.py` never imports or defines `api_status`
(module imports are lines 1-11), so reaching that arm raises
`NameError: name 'api_status' is not defined`. -/
def generate_block_titles (env : TitleEnv) (blocks : List Block)
    (method : String) : Except PyError (List Block) :=
  if method = "enhanced_keywords" then
    .ok (enhanced_keyword_titles env blocks)
  else if method = "openai" then
    .error (.nameError "api_status")
  else if method = "first_sentence" then
    .ok (first_sentence_titles env blocks)
  else
    .ok (simple_titles blocks)

/-- `analyze_subtitles_into_blocks` (blocks.py lines 14-81).  With fewer
than 5 cues, one block spanning all cues is returned immediately; else
the accumulation loop runs and the blocks are titled with the
enhanced-keywords method (that call is `generate_block_titles(blocks,
method="enhanced_keywords")`, whose normal path is
`enhanced_keyword_titles`). -/
def analyze_subtitles_into_blocks (env : TitleEnv) (subtitles : List Cue)
    (min_block_duration min_pause_threshold : ℚ) (max_block_size : Nat) :
    List Block :=
  if subtitles.length < 5 then
    [{ start_time := (subtitles.head?.map Cue.start).getD 0
       end_time := (subtitles.getLast?.map cueEnd).getD 0
       subtitles := subtitles
       content_text := pyJoin " " (subtitles.map cueText)
       title := "Весь контент"
       is_youtube_chapter := false }]
  else
    enhanced_keyword_titles env
      (analyzeLoop min_block_duration min_pause_threshold max_block_size
        subtitles [] "")

/-! ## Chapter reconciliation
(`analyze_subtitles_into_blocks_with_chapters`, blocks.py lines 85-154) -/

/-- A chapter as returned by the chapter sources: `{title, start_time,
end_time | None}`. -/
structure Chapter where
  title : String
  start_time : ℚ
  end_time : Option ℚ
deriving DecidableEq

/-- A chapter after the end-time-filling loop (blocks.py lines 119-124):
every `end_time` is a number. -/
structure RChapter where
  title : String
  start_time : ℚ
  end_time : ℚ
deriving DecidableEq

/-- The end-time-filling loop (blocks.py lines 119-124): a missing
`end_time` becomes the next chapter's `start_time`, or `video_end_time`
for the last chapter.  (The loop mutates in place but only ever reads the
next chapter's `start_time`, which is never written, so it is equivalent
to this one-pass map.) -/
def resolveChapterEnds (video_end_time : ℚ) : List Chapter → List RChapter
  | [] => []
  | [ch] => [⟨ch.title, ch.start_time, ch.end_time.getD video_end_time⟩]
  | ch :: next :: rest =>
      ⟨ch.title, ch.start_time, ch.end_time.getD next.start_time⟩
        :: resolveChapterEnds video_end_time (next :: rest)

/-- The cue filter of the chapter loop (blocks.py lines 133-136): cues
with `start_time ≤ cue.start < end_time`. -/
def chapterCues (subtitles : List Cue) (start_time end_time : ℚ) :
    List Cue :=
  subtitles.filter fun s =>
    decide (s.start ≥ start_time) && decide (s.start < end_time)

/-- Block construction for one resolved chapter (blocks.py lines 128-148):
cues with `start_time ≤ cue.start < end_time`, space-joined text, the
chapter's own title; kept only when there is at least one cue or the span
reaches `min_block_duration`.  The constructed dict has no
`is_youtube_chapter` key, so every later read of that key defaults to
`False`. -/
def chapterBlock (subtitles : List Cue) (min_block_duration : ℚ)
    (ch : RChapter) : Option Block :=
  let chapter_subtitles := chapterCues subtitles ch.start_time ch.end_time
  if chapter_subtitles ≠ [] ∨ ch.end_time - ch.start_time ≥ min_block_duration then
    some
      { start_time := ch.start_time
        end_time := ch.end_time
        subtitles := chapter_subtitles
        content_text := pyJoin " " (chapter_subtitles.map cueText)
        title := ch.title
        is_youtube_chapter := false }
  else
    none

/-- `analyze_subtitles_into_blocks_with_chapters(subtitles, video_id,
video_info, min_block_duration)` (blocks.py lines 85-154), with the
chapter list obtained from the network sources passed in as `chapters`.
Empty subtitle list: `[]`.  Non-empty chapter list: blocks from the
resolved chapters.  No chapters: fall back to the automatic splitter,
called as `analyze_subtitles_into_blocks(subtitles, min_block_duration)`
(so with default pause threshold 3 and block size 25). -/
def analyze_subtitles_into_blocks_with_chapters (env : TitleEnv)
    (chapters : List Chapter) (subtitles : List Cue)
    (min_block_duration : ℚ) : List Block :=
  if subtitles = [] then []
  else
    let video_end_time :=
      ((subtitles.getLast?.map cueEnd).getD 0 : ℚ)
    if chapters ≠ [] then
      (resolveChapterEnds video_end_time chapters).filterMap
        (chapterBlock subtitles min_block_duration)
    else
      analyze_subtitles_into_blocks env subtitles min_block_duration 3 25

/-! ## Full processing and persisted metadata
(`process_subtitles_with_blocks`, blocks.py lines 490-559) -/

/-- The title-reset pass (blocks.py lines 511-514): a block whose title is
empty or starts with `"Section "` has its title cleared. -/
def resetGeneratedTitle (b : Block) : Block :=
  if b.title = "" ∨ pyStartsWith b.title "Section " then { b with title := "" }
  else b

/-- The write-back of regenerated titles (blocks.py lines 517-528).
`generate_block_titles` mutates the selected block dicts in place, and the
selected blocks are exactly those with empty titles, in order; since the
enhanced-keywords method always produces a non-empty title, the in-place
mutation is equivalent to assigning the regenerated titles positionally to
the empty-titled blocks. -/
def assignTitles : List Block → List String → List Block
  | [], _ => []
  | b :: bs, ts =>
      if b.title = "" then
        match ts with
        | t :: ts' => { b with title := t } :: assignTitles bs ts'
        | [] => b :: assignTitles bs []
      else
        b :: assignTitles bs ts

/-- `process_subtitles_with_blocks` (blocks.py lines 490-559) restricted
to its block-producing core, for a video with a known `video_id`: split
with chapters, reset empty/`"Section "` titles, regenerate titles for the
blocks that lost theirs. -/
def process_subtitles_with_blocks (env : TitleEnv) (chapters : List Chapter)
    (subtitles : List Cue) : List Block :=
  let blocks :=
    (analyze_subtitles_into_blocks_with_chapters env chapters subtitles 60).map
      resetGeneratedTitle
  let blocks_to_title := blocks.filter fun b => b.title = ""
  let titled_blocks := enhanced_keyword_titles env blocks_to_title
  assignTitles blocks (titled_blocks.map Block.title)

/-- One record of the persisted block metadata (blocks.py lines 541-548):
`{start_time, end_time, title, is_youtube_chapter}`. -/
structure BlockMeta where
  start_time : ℚ
  end_time : ℚ
  title : String
  is_youtube_chapter : Bool
deriving DecidableEq

/-- The metadata serialization loop (blocks.py lines 541-548). -/
def blocks_metadata (blocks : List Block) : List BlockMeta :=
  blocks.map fun b =>
    { start_time := b.start_time
      end_time := b.end_time
      title := b.title
      is_youtube_chapter := b.is_youtube_chapter }

/-- The session-reload block reconstruction (interface.py lines 216-237):
for each saved record, re-filter the transcript cues by
`start_time ≤ cue.start ≤ end_time` (note: inclusive upper bound) and
space-join their texts.  The reconstructed dict carries no
`is_youtube_chapter` key, so it reads as `False`. -/
def load_blocks_from_metadata (subtitles : List Cue)
    (metas : List BlockMeta) : List Block :=
  metas.map fun m =>
    let block_subtitles :=
      subtitles.filter fun s =>
        decide (s.start ≥ m.start_time) && decide (s.start ≤ m.end_time)
    { start_time := m.start_time
      end_time := m.end_time
      title := m.title
      subtitles := block_subtitles
      content_text := pyJoin " " (block_subtitles.map cueText)
      is_youtube_chapter := false }

/-! ## Time formatting and block lookup
(`format_time` from utils.py; `display_toc_entry` and `get_block_content`
from blocks.py lines 433-486 and 562-609) -/

/-- Python `int()` truncation of a rational toward zero. -/
def pyIntOfRat (q : ℚ) : Int :=
  q.num / (q.den : Int)

/-- Zero-pad a (for our inputs non-negative) integer to two digits,
Python `f"{n:02d}"`. -/
def pad2 (n : Int) : String :=
  if (toString n).length < 2 then "0" ++ toString n else toString n

/-- `format_time(seconds)` (utils.py lines 19-31): `HH:MM:SS` via
`divmod` (Python floor division, which for the positive divisor 60 is
Euclidean division). -/
def format_time (seconds : ℚ) : String :=
  let total := pyIntOfRat seconds
  let minutes := Int.ediv total 60
  let secs := Int.emod total 60
  let hours := Int.ediv minutes 60
  let mins := Int.emod minutes 60
  pad2 hours ++ ":" ++ pad2 mins ++ ":" ++ pad2 secs

/-- A value arriving in the `block_index` argument of the lookup
functions: an integer, a string, or Python `None`. -/
inductive PyVal where
  | int (n : Int)
  | str (s : String)
  | none
deriving DecidableEq

/-- Python `str(v)` for the values above, as interpolated into the error
message. -/
def pyValStr : PyVal → String
  | .int n => toString n
  | .str s => s
  | .none => "None"

/-- Parse a string the way `int()` accepts it: optional surrounding
whitespace, an optional sign, then one or more ASCII digits. -/
def parseIntStr (s : String) : Option Int :=
  let t := stripChars s.data
  let core : Option (Bool × List Char) :=
    match t with
    | '-' :: rest => some (true, rest)
    | '+' :: rest => some (false, rest)
    | rest => some (false, rest)
  match core with
  | some (neg, digits) =>
      if digits ≠ [] ∧ digits.all Char.isDigit then
        let n : Nat := digits.foldl (fun acc c => acc * 10 + (c.toNat - 48)) 0
        some (if neg then -(n : Int) else (n : Int))
      else
        Option.none
  | Option.none => Option.none

/-- `int(block_index)` (blocks.py lines 446-448 and 575-577): succeeds on
integers and integer-formatted strings, raises `ValueError`/`TypeError`
(caught by the source) otherwise. -/
def pyIntConv : PyVal → Option Int
  | .int n => some n
  | .str s => parseIntStr s
  | .none => Option.none

/-- The detailed block preview built by `display_toc_entry` for an
in-range index (blocks.py lines 454-483): title header, time line,
content preview truncated at 200 characters, cue count. -/
def tocEntryPreview (b : Block) : String :=
  let headerPart := "## " ++ b.title ++ "\n\n"
  let timePart :=
    "**Начало:** " ++ format_time b.start_time
      ++ " | **Конец:** " ++ format_time b.end_time
      ++ " | **Длительность:** " ++ format_time (b.end_time - b.start_time)
      ++ "\n\n"
  let previewPart :=
    if b.content_text ≠ "" then
      let preview_text :=
        if b.content_text.length > 200 then pyTake b.content_text 200 ++ "..."
        else b.content_text
      "**Обзор содержимого:**\n\n" ++ preview_text ++ "\n\n"
    else ""
  let countPart :=
    if b.subtitles ≠ [] then
      "**Количество субтитров в блоке:** " ++ toString b.subtitles.length
        ++ "\n\n"
    else ""
  headerPart ++ timePart ++ previewPart ++ countPart
    ++ "Нажмите кнопку \x27Показать содержимое блока\x27 для просмотра полного текста."

/-- The message for an index whose `int()` conversion failed. -/
def invalidIndexMsg (block_index : PyVal) : String :=
  "Неверный индекс блока: \x27" ++ pyValStr block_index
    ++ "\x27. Должно быть целое число."

/-- The message for an integer index outside `[0, len(blocks) - 1]`. -/
def indexOutOfRangeMsg (idx : Int) (nblocks : Nat) : String :=
  "Ошибка: индекс блока " ++ toString idx ++ " вне диапазона (0-"
    ++ toString (nblocks - 1) ++ ")"

/-- `display_toc_entry(block_index)` (blocks.py lines 433-486), with the
global `app_state.subtitle_blocks` passed in as `blocks`. -/
def display_toc_entry (blocks : List Block) (block_index : PyVal) : String :=
  if blocks = [] then
    "Блоки субтитров не найдены. Сначала обработайте видео."
  else
    match pyIntConv block_index with
    | Option.none => invalidIndexMsg block_index
    | some idx =>
        if idx < 0 ∨ idx ≥ (blocks.length : Int) then
          indexOutOfRangeMsg idx blocks.length
        else
          match blocks.get? idx.toNat with
          | some b => tocEntryPreview b
          | Option.none => ""   -- unreachable: 0 ≤ idx < len(blocks)

/-- The full-content rendering built by `get_block_content` for an
in-range index (blocks.py lines 584-606). -/
def blockContentView (b : Block) : String :=
  let headerPart := "## " ++ b.title ++ "\n\n"
  let timePart :=
    "**Временная метка:** " ++ format_time b.start_time ++ " - "
      ++ format_time b.end_time ++ "\n\n"
  let bodyHeader := "### Содержание:\n\n"
  let bodyPart :=
    if b.subtitles ≠ [] then
      String.join
        (b.subtitles.map fun s =>
          "**[" ++ format_time s.start ++ "]** " ++ (s.text.getD "") ++ "\n\n")
    else
      b.content_text
  headerPart ++ timePart ++ bodyHeader ++ bodyPart

/-- `get_block_content(block_index)` (blocks.py lines 562-609), with the
global `app_state.subtitle_blocks` passed in as `blocks`. -/
def get_block_content (blocks : List Block) (block_index : PyVal) : String :=
  if blocks = [] then
    "Блоки субтитров не найдены. Сначала обработайте видео."
  else
    match pyIntConv block_index with
    | Option.none => invalidIndexMsg block_index
    | some idx =>
        if idx < 0 ∨ idx ≥ (blocks.length : Int) then
          indexOutOfRangeMsg idx blocks.length
        else
          match blocks.get? idx.toNat with
          | some b => blockContentView b
          | Option.none => ""   -- unreachable: 0 ≤ idx < len(blocks)

/-! ## Concrete sample data used by witnesses and counterexamples -/

/-- A degenerate NLTK environment (tokenizers that find nothing, empty
stop-word set); any `TitleEnv` is legitimate since the tokenizers are
external. -/
def envTrivial : TitleEnv :=
  ⟨fun _ => [], fun _ => [], []⟩

/-- The three cues of the spec's worked example. -/
def exampleCues : List Cue :=
  [⟨0, some 5, some "Hello"⟩, ⟨5, some 5, some "world"⟩,
   ⟨20, some 5, some "New topic"⟩]

/-- The block the automatic splitter actually returns on `exampleCues`
(the fewer-than-5-cues single-block path). -/
def exampleWholeBlock : Block :=
  { start_time := 0
    end_time := 25
    subtitles := exampleCues
    content_text := "Hello world New topic"
    title := "Весь контент"
    is_youtube_chapter := false }

/-- Two cues whose gap is exactly the default pause threshold 3:
the first ends at 10, the second starts at 13. -/
def cueGapA : Cue := ⟨5, some 5, some "left"⟩

/-- See `cueGapA`. -/
def cueGapB : Cue := ⟨13, some 5, some "right"⟩

/-- Three chapters of which only the last lacks an end time. -/
def exampleChapters : List Chapter :=
  [⟨"Part one", 0, some 30⟩, ⟨"Part two", 30, some 60⟩,
   ⟨"Part three", 60, Option.none⟩]

/-- Two cues; the last one ends at `90 + 7 = 97`. -/
def exampleCues2 : List Cue :=
  [⟨0, some 5, some "a"⟩, ⟨90, some 7, some "end"⟩]

/-- One chapter with one matching cue. -/
def chaptersIntro : List Chapter := [⟨"Introduction", 0, some 10⟩]

/-- A single cue at time 0. -/
def cuesX : List Cue := [⟨0, some 5, some "x"⟩]

/-- A 71-character chapter title. -/
def longTitle71 : String :=
  "aaaaaaaaaaaaaaaaaaaaaaaaaaaaaaaaaaaaaaaaaaaaaaaaaaaaaaaaaaaaaaaaaaaaaaa"

/-- One chapter carrying the 71-character title. -/
def chaptersLong : List Chapter := [⟨longTitle71, 0, some 10⟩]

/-- Two contiguous chapters; the boundary cue starts exactly at the first
chapter's end time. -/
def chaptersAB : List Chapter :=
  [⟨"Alpha", 0, some 10⟩, ⟨"Beta", 10, some 20⟩]

/-- Two cues, the second starting exactly on the chapter boundary 10. -/
def cuesAB : List Cue :=
  [⟨0, some 5, some "hello"⟩, ⟨10, some 5, some "bye"⟩]

/-- Five contiguous cues with no pauses (the splitter keeps them in one
block, closed only by the forced final close). -/
def fiveCues : List Cue :=
  [⟨0, some 1, some "a"⟩, ⟨1, some 1, some "b"⟩, ⟨2, some 1, some "c"⟩,
   ⟨3, some 1, some "d"⟩, ⟨4, some 1, some "e"⟩]

/-- A one-element block list for lookup tests. -/
def blocksOne : List Block :=
  [{ start_time := 0
     end_time := 10
     subtitles := cuesX
     content_text := "x"
     title := "Intro"
     is_youtube_chapter := false }]

/-- Projection of a block to everything except its title: the title
generation passes rewrite only `title`. -/
def blockCore (b : Block) : ℚ × ℚ × List Cue × String × Bool :=
  (b.start_time, b.end_time, b.subtitles, b.content_text, b.is_youtube_chapter)

/-! ## Theorems -/

/-- `titleBlocks` changes only titles. -/
theorem titleBlocks_map_blockCore (f : Nat → Block → String) :
    ∀ (i : Nat) (bs : List Block),
      (titleBlocks f i bs).map blockCore = bs.map blockCore
  | _, [] => rfl
  | i, b :: bs => by
      simp only [titleBlocks, List.map_cons, List.cons.injEq]
      exact ⟨rfl, titleBlocks_map_blockCore f (i + 1) bs⟩

/-- `assignTitles` changes only titles. -/
theorem assignTitles_map_blockCore :
    ∀ (bs : List Block) (ts : List String),
      (assignTitles bs ts).map blockCore = bs.map blockCore
  | [], _ => rfl
  | b :: bs, ts => by
      simp only [assignTitles]
      split
      · split <;> simp [blockCore, assignTitles_map_blockCore bs]
      · simp [blockCore, assignTitles_map_blockCore bs]

/-- The title-reset pass changes only titles. -/
theorem resetGeneratedTitle_blockCore (b : Block) :
    blockCore (resetGeneratedTitle b) = blockCore b := by
  unfold resetGeneratedTitle
  split <;> rfl

/-- The full processing pipeline leaves every non-title field of the
blocks produced by the chapter-aware splitter unchanged. -/
theorem process_map_blockCore (env : TitleEnv) (chapters : List Chapter)
    (subtitles : List Cue) :
    (process_subtitles_with_blocks env chapters subtitles).map blockCore
      = (analyze_subtitles_into_blocks_with_chapters env chapters subtitles 60).map
          blockCore := by
  unfold process_subtitles_with_blocks enhanced_keyword_titles
  rw [assignTitles_map_blockCore, List.map_map]
  exact List.map_congr_left fun b _ => resetGeneratedTitle_blockCore b

/-- Claim C4: in the automatic splitter the close decision taken after a
cue (the gate `should_split or i == len(subtitles) - 1` guarding block
emission in `analyzeLoop`) holds exactly when the gap from the cue's end
to the next cue's start reaches `min_pause_threshold` (boundary
inclusive), or the accumulated cue count reaches `max_block_size`, or the
cue is the last one. -/
theorem C4_close_condition (s : Cue) (rest : List Cue) (curLen : Nat)
    (min_pause_threshold : ℚ) (max_block_size : Nat) :
    (should_split s rest.head? curLen min_pause_threshold max_block_size
        || rest.isEmpty) = true
      ↔ ((∃ next ∈ rest.head?,
            next.start - (s.start + s.duration.getD 5) ≥ min_pause_threshold)
          ∨ curLen ≥ max_block_size ∨ rest = []) := by
  cases rest with
  | nil => simp [should_split]
  | cons t r => simp [should_split]

/-- Claim C8: the title-assignment dispatch is not total.  The
`"openai"` strategy arm evaluates `api_status.get("openai", False)`, but
`blocks.py` never defines or imports `api_status`, so the call raises
`NameError` for every block list instead of degrading to numbered
titles. -/
theorem C8_openai_name_error (env : TitleEnv) (blocks : List Block) :
    generate_block_titles env blocks "openai"
      = Except.error (PyError.nameError "api_status") := rfl

/-- Claim C2: with fewer than 5 cues the splitter returns exactly one
block, spanning from the first cue's start to the last cue's start plus
its duration (default 5), and spanning `[0, 0]` for the empty input. -/
theorem C2_short_input (env : TitleEnv) (subs : List Cue) (d p : ℚ)
    (m : Nat) (h : subs.length < 5) :
    (analyze_subtitles_into_blocks env subs d p m).length = 1 ∧
    ∀ b ∈ analyze_subtitles_into_blocks env subs d p m,
      (subs = [] → b.start_time = 0 ∧ b.end_time = 0) ∧
      (∀ c ∈ subs.head?, b.start_time = c.start) ∧
      (∀ c ∈ subs.getLast?, b.end_time = c.start + c.duration.getD 5) := by
  unfold analyze_subtitles_into_blocks
  rw [if_pos h]
  refine ⟨rfl, ?_⟩
  intro b hb
  rw [List.mem_singleton] at hb
  subst hb
  refine ⟨?_, ?_, ?_⟩
  · rintro rfl
    exact ⟨rfl, rfl⟩
  · intro c hc
    simp only [Option.mem_def] at hc
    simp [hc]
  · intro c hc
    simp only [Option.mem_def] at hc
    simp [hc, cueEnd]

/-- Witness for C2 on the three-cue example. -/
theorem C2_short_input_witness :
    exampleCues.length < 5 ∧
    ((analyze_subtitles_into_blocks envTrivial exampleCues 60 3 25).length = 1 ∧
    ∀ b ∈ analyze_subtitles_into_blocks envTrivial exampleCues 60 3 25,
      (exampleCues = [] → b.start_time = 0 ∧ b.end_time = 0) ∧
      (∀ c ∈ exampleCues.head?, b.start_time = c.start) ∧
      (∀ c ∈ exampleCues.getLast?, b.end_time = c.start + c.duration.getD 5)) :=
  ⟨by decide, C2_short_input envTrivial exampleCues 60 3 25 (by decide)⟩

/-- Claim C3 fails on the code: the spec's worked example has only three
cues, so the splitter takes the fewer-than-5-cues path and returns a
single block, not the two blocks the claim states (here with
`min_block_duration = 10 ≤ 10`). -/
theorem C3_counterexample :
    ¬ (analyze_subtitles_into_blocks envTrivial exampleCues 10 3 25).length = 2 := by
  unfold analyze_subtitles_into_blocks
  rw [if_pos (by decide)]
  decide

/-- Claim C3 (amended): on cues
`[{start 0, dur 5, "Hello"}, {start 5, dur 5, "world"},
{start 20, dur 5, "New topic"}]` with `min_pause_threshold = 3` and any
`min_block_duration ≤ 10`, the splitter returns exactly one block
spanning `[0, 25]` holding all three cues (inputs with fewer than 5 cues
always take the single-block path, regardless of pauses). -/
theorem C3_single_block (env : TitleEnv) (d : ℚ) (hd : d ≤ 10) :
    analyze_subtitles_into_blocks env exampleCues d 3 25
      = [exampleWholeBlock] := by
  unfold analyze_subtitles_into_blocks
  rw [if_pos (by decide)]
  have h1 : (exampleCues.head?.map Cue.start).getD 0 = (0 : ℚ) := by
    norm_num [exampleCues]
  have h2 : (exampleCues.getLast?.map cueEnd).getD 0 = (25 : ℚ) := by
    norm_num [exampleCues, cueEnd]
  have h3 : pyJoin " " (exampleCues.map cueText) = "Hello world New topic" := by
    decide
  rw [h1, h2, h3]
  rfl

/-- Witness for the amended C3 at `min_block_duration = 10`. -/
theorem C3_single_block_witness :
    (10 : ℚ) ≤ 10 ∧
    analyze_subtitles_into_blocks envTrivial exampleCues 10 3 25
      = [exampleWholeBlock] :=
  ⟨le_refl 10, C3_single_block envTrivial 10 (le_refl 10)⟩

/-- Claim C6: the end-time-filling pass of chapter reconciliation gives a
chapter with missing `end_time` the next chapter's `start_time`, and
gives the last chapter the video end time `last_cue.start +
last_cue.duration` (with `lastEnd subs` exactly the
`video_end_time = subtitles[-1]["start"] + subtitles[-1].get("duration", 5)`
computed by `analyze_subtitles_into_blocks_with_chapters`). -/
theorem C6_resolve_missing_end (subs : List Cue) (c : Cue)
    (hlast : subs.getLast? = some c) (chapters : List Chapter) (i : Nat)
    (ch : Chapter) (hget : chapters.get? i = some ch)
    (hmiss : ch.end_time = Option.none) :
    (resolveChapterEnds (lastEnd subs) chapters).get? i =
      some ⟨ch.title, ch.start_time,
        match chapters.get? (i + 1) with
        | some next => next.start_time
        | Option.none => c.start + c.duration.getD 5⟩ := by
  have hv : lastEnd subs = c.start + c.duration.getD 5 := by
    simp [lastEnd, hlast, cueEnd]
  induction chapters generalizing i with
  | nil => simp at hget
  | cons x xs ih =>
    cases xs with
    | nil =>
      cases i with
      | zero =>
        simp only [List.get?] at hget
        cases hget
        simp [resolveChapterEnds, hmiss, hv]
      | succ j => simp [List.get?] at hget
    | cons y ys =>
      cases i with
      | zero =>
        simp only [List.get?] at hget
        cases hget
        simp [resolveChapterEnds, hmiss]
      | succ j =>
        simp only [List.get?] at hget ⊢
        simpa [resolveChapterEnds] using ih j hget

/-- Witness for C6: three chapters with only the last missing `end_time`;
its resolved end is the final cue's `start + duration = 90 + 7`. -/
theorem C6_resolve_missing_end_witness :
    exampleCues2.getLast? = some ⟨90, some 7, some "end"⟩ ∧
    exampleChapters.get? 2 = some ⟨"Part three", 60, Option.none⟩ ∧
    (resolveChapterEnds (lastEnd exampleCues2) exampleChapters).get? 2 =
      some ⟨"Part three", 60,
        match exampleChapters.get? 3 with
        | some next => next.start_time
        | Option.none => (90 : ℚ) + (some (7 : ℚ)).getD 5⟩ :=
  ⟨rfl, rfl,
    C6_resolve_missing_end exampleCues2 ⟨90, some 7, some "end"⟩ rfl
      exampleChapters 2 ⟨"Part three", 60, Option.none⟩ rfl rfl⟩

/-- Claim C10: on a non-empty block list, lookup with an index whose
integer conversion fails (a non-numeric string, `None`) returns the
invalid-index message; an integer outside `[0, len-1]` (such as `-1` or
`len`) returns the out-of-range message; an in-range integer returns the
block's preview / content rendering.  Both `display_toc_entry` and
`get_block_content` behave this way and never raise. -/
theorem C10_lookup_results (blocks : List Block) (s : String) (i : Nat)
    (b : Block) (hb : blocks ≠ []) (hs : parseIntStr s = Option.none)
    (hi : blocks.get? i = some b) :
    display_toc_entry blocks (.str s) = invalidIndexMsg (.str s) ∧
    get_block_content blocks (.str s) = invalidIndexMsg (.str s) ∧
    display_toc_entry blocks PyVal.none = invalidIndexMsg PyVal.none ∧
    get_block_content blocks PyVal.none = invalidIndexMsg PyVal.none ∧
    display_toc_entry blocks (.int (-1)) = indexOutOfRangeMsg (-1) blocks.length ∧
    get_block_content blocks (.int (-1)) = indexOutOfRangeMsg (-1) blocks.length ∧
    display_toc_entry blocks (.int blocks.length)
      = indexOutOfRangeMsg blocks.length blocks.length ∧
    get_block_content blocks (.int blocks.length)
      = indexOutOfRangeMsg blocks.length blocks.length ∧
    display_toc_entry blocks (.int i) = tocEntryPreview b ∧
    get_block_content blocks (.int i) = blockContentView b := by
  obtain ⟨hlt, -⟩ := List.get?_eq_some.mp hi
  have hneg : ((-1 : Int) < 0 ∨ (-1 : Int) ≥ (blocks.length : Int)) :=
    Or.inl (by norm_num)
  have hlen : ((blocks.length : Int) < 0 ∨
      (blocks.length : Int) ≥ (blocks.length : Int)) := Or.inr le_rfl
  have hin : ¬ (((i : Nat) : Int) < 0 ∨ ((i : Nat) : Int) ≥ (blocks.length : Int)) := by
    push_neg
    exact ⟨Int.ofNat_nonneg i, by exact_mod_cast hlt⟩
  have htn : ((i : Nat) : Int).toNat = i := Int.toNat_ofNat i
  simp only [display_toc_entry, get_block_content, pyIntConv, hs, if_neg hb,
    if_pos hneg, if_pos hlen, if_neg hin, htn, hi]
  exact ⟨trivial, trivial, trivial, trivial, trivial, trivial, trivial,
    trivial, trivial, trivial⟩

/-- Witness for C10 on a one-block list with index string `"abc"`,
integers `-1`, `1` and in-range `0`. -/
theorem C10_lookup_results_witness :
    blocksOne ≠ [] ∧ parseIntStr "abc" = Option.none ∧
    blocksOne.get? 0 = some
      { start_time := 0, end_time := 10, subtitles := cuesX,
        content_text := "x", title := "Intro", is_youtube_chapter := false } ∧
    (display_toc_entry blocksOne (.str "abc") = invalidIndexMsg (.str "abc") ∧
     get_block_content blocksOne (.str "abc") = invalidIndexMsg (.str "abc") ∧
     display_toc_entry blocksOne PyVal.none = invalidIndexMsg PyVal.none ∧
     get_block_content blocksOne PyVal.none = invalidIndexMsg PyVal.none ∧
     display_toc_entry blocksOne (.int (-1)) = indexOutOfRangeMsg (-1) blocksOne.length ∧
     get_block_content blocksOne (.int (-1)) = indexOutOfRangeMsg (-1) blocksOne.length ∧
     display_toc_entry blocksOne (.int blocksOne.length)
       = indexOutOfRangeMsg blocksOne.length blocksOne.length ∧
     get_block_content blocksOne (.int blocksOne.length)
       = indexOutOfRangeMsg blocksOne.length blocksOne.length ∧
     display_toc_entry blocksOne (.int 0) = tocEntryPreview
       { start_time := 0, end_time := 10, subtitles := cuesX,
         content_text := "x", title := "Intro", is_youtube_chapter := false } ∧
     get_block_content blocksOne (.int 0) = blockContentView
       { start_time := 0, end_time := 10, subtitles := cuesX,
         content_text := "x", title := "Intro", is_youtube_chapter := false }) :=
  ⟨by simp [blocksOne], by decide, rfl,
    C10_lookup_results blocksOne "abc" 0 _ (by simp [blocksOne]) (by decide) rfl⟩

/-- Claim C5 (amended): for a non-empty chapter list and non-empty cue
list, every block of `analyze_subtitles_into_blocks_with_chapters` comes
from a resolved chapter and carries exactly the cues with
`start_time ≤ cue.start < end_time`, their space-joined text, and the
chapter's title; a chapter yields a block iff it has at least one
matching cue or its span reaches `min_block_duration`.  However
`is_youtube_chapter` is never set by the code: the constructed block
dict has no such key, so every read of it defaults to `False` (the
original claim's `is_youtube_chapter = true` is wrong). -/
theorem C5_chapter_blocks (env : TitleEnv) (chapters : List Chapter)
    (subs : List Cue) (minDur : ℚ) (hch : chapters ≠ [])
    (hsubs : subs ≠ []) :
    (∀ b ∈ analyze_subtitles_into_blocks_with_chapters env chapters subs minDur,
      ∃ ch ∈ resolveChapterEnds (lastEnd subs) chapters,
        b.start_time = ch.start_time ∧ b.end_time = ch.end_time ∧
        b.subtitles = chapterCues subs ch.start_time ch.end_time ∧
        b.content_text
          = pyJoin " " ((chapterCues subs ch.start_time ch.end_time).map cueText) ∧
        b.title = ch.title ∧ b.is_youtube_chapter = false) ∧
    (∀ ch ∈ resolveChapterEnds (lastEnd subs) chapters,
      (chapterCues subs ch.start_time ch.end_time ≠ [] ∨
          ch.end_time - ch.start_time ≥ minDur) ↔
        ∃ b ∈ analyze_subtitles_into_blocks_with_chapters env chapters subs minDur,
          b.start_time = ch.start_time ∧ b.end_time = ch.end_time ∧
          b.title = ch.title ∧
          b.subtitles = chapterCues subs ch.start_time ch.end_time) := by
  have hv : ((subs.getLast?.map cueEnd).getD 0 : ℚ) = lastEnd subs := rfl
  unfold analyze_subtitles_into_blocks_with_chapters
  rw [if_neg hsubs, if_pos hch, hv]
  constructor
  · intro b hb
    rw [List.mem_filterMap] at hb
    obtain ⟨ch, hmem, hcb⟩ := hb
    refine ⟨ch, hmem, ?_⟩
    simp only [chapterBlock] at hcb
    split at hcb
    · cases hcb
      exact ⟨rfl, rfl, rfl, rfl, rfl, rfl⟩
    · cases hcb
  · intro ch hmem
    constructor
    · intro hcond
      refine ⟨Block.mk ch.start_time ch.end_time
          (chapterCues subs ch.start_time ch.end_time)
          (pyJoin " " ((chapterCues subs ch.start_time ch.end_time).map cueText))
          ch.title false, ?_, rfl, rfl, rfl, rfl⟩
      rw [List.mem_filterMap]
      refine ⟨ch, hmem, ?_⟩
      simp only [chapterBlock]
      rw [if_pos hcond]
    · rintro ⟨b, hb, hst, hen, -, hsubs'⟩
      rw [List.mem_filterMap] at hb
      obtain ⟨ch', hmem', hcb⟩ := hb
      simp only [chapterBlock] at hcb
      split at hcb
      · rename_i hcond'
        cases hcb
        simp only at hst hen hsubs'
        rw [hst, hen] at hcond'
        exact hcond'
      · cases hcb

/-- Evaluation of the chapter splitter on one chapter with one matching
cue. -/
theorem chaptersIntro_eval :
    analyze_subtitles_into_blocks_with_chapters envTrivial
      chaptersIntro cuesX 60 = [Block.mk 0 10 cuesX "x" "Introduction" false] := by
  unfold analyze_subtitles_into_blocks_with_chapters
  rw [if_neg (by simp [cuesX]), if_pos (by simp [chaptersIntro])]
  norm_num [chaptersIntro, cuesX, resolveChapterEnds, chapterBlock,
    chapterCues, pyJoin, cueText, List.filterMap_cons, List.filter_cons]

/-- Claim C5 fails as stated: on a chapter with one matching cue, the
produced block's `is_youtube_chapter` reads as `False` — the code never
sets the key. -/
theorem C5_flag_counterexample :
    ¬ (∀ b ∈ analyze_subtitles_into_blocks_with_chapters envTrivial
          chaptersIntro cuesX 60,
        b.is_youtube_chapter = true) := by
  intro h
  rw [chaptersIntro_eval] at h
  have hflag := h _ (List.mem_singleton.mpr rfl)
  simp at hflag

/-- Witness for the amended C5 on one chapter with one matching cue. -/
theorem C5_chapter_blocks_witness :
    chaptersIntro ≠ [] ∧ cuesX ≠ [] ∧
    ((∀ b ∈ analyze_subtitles_into_blocks_with_chapters envTrivial
          chaptersIntro cuesX 60,
      ∃ ch ∈ resolveChapterEnds (lastEnd cuesX) chaptersIntro,
        b.start_time = ch.start_time ∧ b.end_time = ch.end_time ∧
        b.subtitles = chapterCues cuesX ch.start_time ch.end_time ∧
        b.content_text
          = pyJoin " " ((chapterCues cuesX ch.start_time ch.end_time).map cueText) ∧
        b.title = ch.title ∧ b.is_youtube_chapter = false) ∧
    (∀ ch ∈ resolveChapterEnds (lastEnd cuesX) chaptersIntro,
      (chapterCues cuesX ch.start_time ch.end_time ≠ [] ∨
          ch.end_time - ch.start_time ≥ 60) ↔
        ∃ b ∈ analyze_subtitles_into_blocks_with_chapters envTrivial
            chaptersIntro cuesX 60,
          b.start_time = ch.start_time ∧ b.end_time = ch.end_time ∧
          b.title = ch.title ∧
          b.subtitles = chapterCues cuesX ch.start_time ch.end_time)) :=
  ⟨by simp [chaptersIntro], by simp [cuesX],
    C5_chapter_blocks envTrivial chaptersIntro cuesX 60
      (by simp [chaptersIntro]) (by simp [cuesX])⟩

/-- A non-empty string has positive character length. -/
theorem length_pos_of_ne_empty {s : String} (h : s ≠ "") : 0 < s.length := by
  rcases s with ⟨l⟩
  cases l with
  | nil => exact absurd rfl h
  | cons c cs => simp [String.length]

/-- A string of positive length is non-empty. -/
theorem ne_empty_of_length_pos {s : String} (h : 0 < s.length) : s ≠ "" := by
  intro he
  subst he
  simp at h

/-- Length of a Python slice `s[:n]`. -/
theorem length_pyTake (s : String) (n : Nat) :
    (pyTake s n).length = min n s.length := by
  rcases s with ⟨l⟩
  simp [pyTake, String.length]

/-- `capitalize` keeps the length. -/
theorem length_pyCapitalize (s : String) :
    (pyCapitalize s).length = s.length := by
  rcases s with ⟨l⟩
  cases l with
  | nil => rfl
  | cons c cs => simp [pyCapitalize, String.length]

/-- Every branch of the title composition yields a non-empty string. -/
theorem composeEnhancedTitle_pos (i : Nat) (first_phrase : String)
    (top_words : List String) :
    0 < (composeEnhancedTitle i first_phrase top_words).length := by
  unfold composeEnhancedTitle
  split
  · rename_i hcond
    rw [String.length_append]
    have h1 : 0 < (pyCapitalize (if first_phrase.length > 30 then
        pyTake first_phrase 30 ++ "..." else first_phrase)).length := by
      rw [length_pyCapitalize]
      split
      · rw [String.length_append]
        have : ("..." : String).length = 3 := by decide
        omega
      · exact length_pos_of_ne_empty hcond.2
    omega
  · split
    · rename_i hfp
      rw [length_pyCapitalize]
      exact length_pos_of_ne_empty hfp
    · split
      · rw [String.length_append]
        have : ("Topic: " : String).length = 7 := by decide
        omega
      · rw [String.length_append]
        have : ("Section " : String).length = 8 := by decide
        omega

/-- The final cap keeps non-emptiness and bounds the length by 73
(70 plus the appended 3-character ellipsis). -/
theorem truncateTitle70_bounds (t : String) (h : 0 < t.length) :
    truncateTitle70 t ≠ "" ∧ (truncateTitle70 t).length ≤ 73 := by
  unfold truncateTitle70
  have hd : ("..." : String).length = 3 := by decide
  split
  · rename_i hgt
    constructor
    · apply ne_empty_of_length_pos
      rw [String.length_append, length_pyTake]
      omega
    · rw [String.length_append, length_pyTake, hd]
      omega
  · rename_i hle
    exact ⟨ne_empty_of_length_pos h, by omega⟩

/-- Every element of `titleBlocks f i bs` is an input block with its
title replaced by `f` at some index. -/
theorem mem_titleBlocks (f : Nat → Block → String) :
    ∀ (i : Nat) (bs : List Block) (b : Block), b ∈ titleBlocks f i bs →
      ∃ (j : Nat) (b₀ : Block), b = { b₀ with title := f j b₀ }
  | _, [], b => by simp [titleBlocks]
  | i, b₀ :: bs, b => by
      simp only [titleBlocks, List.mem_cons]
      rintro (rfl | h)
      · exact ⟨i, b₀, rfl⟩
      · exact mem_titleBlocks f (i + 1) bs b h

/-- End-time resolution keeps chapter titles. -/
theorem mem_resolveChapterEnds_title :
    ∀ (v : ℚ) (chapters : List Chapter) (ch : RChapter),
      ch ∈ resolveChapterEnds v chapters → ∃ c ∈ chapters, ch.title = c.title
  | _, [], ch => by simp [resolveChapterEnds]
  | v, [c], ch => by
      simp only [resolveChapterEnds, List.mem_singleton]
      rintro rfl
      exact ⟨c, by simp, rfl⟩
  | v, c :: next :: rest, ch => by
      simp only [resolveChapterEnds, List.mem_cons]
      rintro (rfl | h)
      · exact ⟨c, by simp, rfl⟩
      · obtain ⟨c', hc', ht⟩ :=
          mem_resolveChapterEnds_title v (next :: rest) ch h
        exact ⟨c', by simp [List.mem_cons.mp hc'], ht⟩

/-- Claim C7 (amended): titles assigned by the enhanced-keywords title
generator are non-empty and at most 73 characters long — the 70-character
truncation appends a 3-character ellipsis, so truncated titles have
length 73, not 70.  Chapter-derived blocks instead carry the chapter's
title verbatim, with no length bound enforced, so the original
70-character bound fails on long chapter titles (see the
counterexample). -/
theorem C7_title_bounds :
    (∀ (env : TitleEnv) (blocks : List Block),
      ∀ b ∈ enhanced_keyword_titles env blocks,
        b.title ≠ "" ∧ b.title.length ≤ 73) ∧
    (∀ (env : TitleEnv) (chapters : List Chapter) (subs : List Cue)
        (minDur : ℚ),
      chapters ≠ [] →
      ∀ b ∈ analyze_subtitles_into_blocks_with_chapters env chapters subs
          minDur,
        ∃ c ∈ chapters, b.title = c.title) := by
  constructor
  · intro env blocks b hb
    obtain ⟨j, b₀, rfl⟩ := mem_titleBlocks _ 0 blocks b hb
    simp only [mkEnhancedTitle]
    exact truncateTitle70_bounds _ (composeEnhancedTitle_pos _ _ _)
  · intro env chapters subs minDur hch b hb
    unfold analyze_subtitles_into_blocks_with_chapters at hb
    by_cases hs : subs = []
    · rw [if_pos hs] at hb
      simp at hb
    · rw [if_neg hs, if_pos hch] at hb
      rw [List.mem_filterMap] at hb
      obtain ⟨ch, hmem, hcb⟩ := hb
      have hbt : b.title = ch.title := by
        simp only [chapterBlock] at hcb
        split at hcb
        · cases hcb
          rfl
        · cases hcb
      obtain ⟨c, hc, ht⟩ := mem_resolveChapterEnds_title _ chapters ch hmem
      exact ⟨c, hc, by rw [hbt, ht]⟩

/-- Evaluation of the chapter splitter on the 71-character chapter
title. -/
theorem chaptersLong_eval :
    analyze_subtitles_into_blocks_with_chapters envTrivial
      chaptersLong cuesX 60 = [Block.mk 0 10 cuesX "x" longTitle71 false] := by
  unfold analyze_subtitles_into_blocks_with_chapters
  rw [if_neg (by simp [cuesX]), if_pos (by simp [chaptersLong])]
  norm_num [chaptersLong, cuesX, resolveChapterEnds, chapterBlock,
    chapterCues, pyJoin, cueText, List.filterMap_cons, List.filter_cons]

/-- Evaluation of the full processing pass on the 71-character chapter
title: the title is kept verbatim. -/
theorem processLong_eval :
    process_subtitles_with_blocks envTrivial chaptersLong cuesX
      = [Block.mk 0 10 cuesX "x" longTitle71 false] := by
  unfold process_subtitles_with_blocks
  rw [chaptersLong_eval]
  decide

/-- Claim C7 fails as stated: after the full segmentation pass of a video
with a 71-character chapter title, the emitted block's title has length
71 > 70. -/
theorem C7_counterexample :
    ¬ (∀ b ∈ process_subtitles_with_blocks envTrivial chaptersLong cuesX,
        b.title ≠ "" ∧ b.title.length ≤ 70) := by
  intro h
  have hb := h _ (by rw [processLong_eval]; exact List.mem_singleton.mpr rfl)
  exact absurd hb.2 (by decide)

/-- Witness for the amended C7: a generated title (here `"Section 1"`)
is non-empty and within 73 characters, and a chapter block's title is the
chapter's own. -/
theorem C7_title_bounds_witness :
    (Block.mk 0 10 cuesX "x" (mkEnhancedTitle envTrivial 0 "x") false
        ∈ enhanced_keyword_titles envTrivial blocksOne) ∧
    ((Block.mk 0 10 cuesX "x" (mkEnhancedTitle envTrivial 0 "x") false).title
        ≠ "" ∧
      (Block.mk 0 10 cuesX "x" (mkEnhancedTitle envTrivial 0 "x") false).title.length
        ≤ 73) ∧
    chaptersIntro ≠ [] ∧
    (Block.mk 0 10 cuesX "x" "Introduction" false
        ∈ analyze_subtitles_into_blocks_with_chapters envTrivial chaptersIntro
            cuesX 60) ∧
    (∃ c ∈ chaptersIntro,
      (Block.mk 0 10 cuesX "x" "Introduction" false).title = c.title) :=
  ⟨List.mem_singleton.mpr rfl,
    C7_title_bounds.1 envTrivial blocksOne _ (List.mem_singleton.mpr rfl),
    by simp [chaptersIntro],
    by rw [chaptersIntro_eval]; exact List.mem_singleton.mpr rfl,
    C7_title_bounds.2 envTrivial chaptersIntro cuesX 60 (by simp [chaptersIntro])
      _ (by rw [chaptersIntro_eval]; exact List.mem_singleton.mpr rfl)⟩

/-- Appending one more text to the running concatenation. -/
theorem spaceConcat_append_one (ts : List String) (t : String) :
    spaceConcat (ts ++ [t]) = spaceConcat ts ++ " " ++ t := by
  unfold spaceConcat
  rw [List.foldl_append]
  rfl

/-- Equal `blockCore` images give equal `subtitles` images. -/
theorem map_subtitles_of_map_blockCore {l₁ l₂ : List Block}
    (h : l₁.map blockCore = l₂.map blockCore) :
    l₁.map Block.subtitles = l₂.map Block.subtitles := by
  have h₂ := congrArg
    (List.map fun q : ℚ × ℚ × List Cue × String × Bool => q.2.2.1) h
  simpa only [List.map_map] using h₂

/-- Equal `blockCore` images give equal `start_time` images. -/
theorem map_start_of_map_blockCore {l₁ l₂ : List Block}
    (h : l₁.map blockCore = l₂.map blockCore) :
    l₁.map Block.start_time = l₂.map Block.start_time := by
  have h₂ := congrArg
    (List.map fun q : ℚ × ℚ × List Cue × String × Bool => q.1) h
  simpa only [List.map_map] using h₂

/-- Equal `blockCore` images give equal `end_time` images. -/
theorem map_end_of_map_blockCore {l₁ l₂ : List Block}
    (h : l₁.map blockCore = l₂.map blockCore) :
    l₁.map Block.end_time = l₂.map Block.end_time := by
  have h₂ := congrArg
    (List.map fun q : ℚ × ℚ × List Cue × String × Bool => q.2.1) h
  simpa only [List.map_map] using h₂

/-- Equal `blockCore` images give equal `content_text` images. -/
theorem map_content_of_map_blockCore {l₁ l₂ : List Block}
    (h : l₁.map blockCore = l₂.map blockCore) :
    l₁.map Block.content_text = l₂.map Block.content_text := by
  have h₂ := congrArg
    (List.map fun q : ℚ × ℚ × List Cue × String × Bool => q.2.2.2.1) h
  simpa only [List.map_map] using h₂

/-- The splitter loop emits every visited cue exactly once, in order:
the concatenation of the emitted blocks' cue lists is the pending block
followed by the remaining input (the final block is always emitted). -/
theorem analyzeLoop_join (d p : ℚ) (m : Nat) :
    ∀ (rest pending : List Cue) (t : String), rest ≠ [] →
      ((analyzeLoop d p m rest pending t).map Block.subtitles).flatten
        = pending ++ rest := by
  intro rest
  induction rest with
  | nil => exact fun _ _ h => absurd rfl h
  | cons s r ih =>
    intro pending t _
    simp only [analyzeLoop]
    by_cases hr : r = []
    · subst hr
      simp [analyzeLoop]
    · have hre : r.isEmpty = false := by
        simpa [List.isEmpty_iff] using hr
      rw [hre]
      simp only [Bool.or_false]
      split
      · split
        · simp only [List.map_cons, List.flatten_cons]
          rw [ih [] "" hr]
          simp
        · rw [ih (pending ++ [s]) _ hr]
          simp
      · rw [ih (pending ++ [s]) _ hr]
        simp

/-- Every block emitted by the loop records its own cues' first start,
last end, and stripped accumulated text (the `pendingText` argument is
the loop invariant for `current_block_text`). -/
theorem analyzeLoop_block_facts (d p : ℚ) (m : Nat) :
    ∀ (rest pending : List Cue) (t : String),
      t = spaceConcat (pending.map cueText) →
      ∀ b ∈ analyzeLoop d p m rest pending t,
        b.subtitles ≠ [] ∧ b.start_time = firstStart b.subtitles ∧
        b.end_time = lastEnd b.subtitles ∧
        b.content_text = pyStrip (spaceConcat (b.subtitles.map cueText)) := by
  intro rest
  induction rest with
  | nil => intro pending t _ b hb; simp [analyzeLoop] at hb
  | cons s r ih =>
    intro pending t ht b hb
    have hcur : t ++ " " ++ (s.text.getD "")
        = spaceConcat ((pending ++ [s]).map cueText) := by
      rw [List.map_append, List.map_singleton, spaceConcat_append_one, ht]
      rfl
    simp only [analyzeLoop] at hb
    split at hb
    · split at hb
      · rw [List.mem_cons] at hb
        rcases hb with rfl | hb
        · refine ⟨by simp, rfl, rfl, ?_⟩
          simp only
          rw [hcur]
        · exact ih [] "" rfl b hb
      · exact ih (pending ++ [s]) _ hcur b hb
    · exact ih (pending ++ [s]) _ hcur b hb

/-- In a flat-sorted list of non-empty segments, the segment heads are
in non-decreasing start order. -/
theorem chain'_firstStart_of_sorted_flatten :
    ∀ (Ls : List (List Cue)), (∀ l ∈ Ls, l ≠ []) →
      List.Pairwise (fun a b : Cue => a.start ≤ b.start) Ls.flatten →
      List.Chain' (· ≤ ·) (Ls.map firstStart)
  | [], _, _ => by simp
  | [l], _, _ => by simp
  | l₁ :: l₂ :: rest, hne, hsort => by
      rw [List.map_cons, List.map_cons, List.chain'_cons]
      have h₁ : l₁ ≠ [] := hne l₁ (by simp)
      have h₂ : l₂ ≠ [] := hne l₂ (by simp)
      constructor
      · rw [List.flatten_cons, List.pairwise_append] at hsort
        obtain ⟨-, -, hcross⟩ := hsort
        obtain ⟨a, l₁', rfl⟩ := List.exists_cons_of_ne_nil h₁
        obtain ⟨b, l₂', rfl⟩ := List.exists_cons_of_ne_nil h₂
        have hb : b ∈ ((b :: l₂') :: rest).flatten := by simp
        exact hcross a (by simp) b hb
      · have := chain'_firstStart_of_sorted_flatten (l₂ :: rest)
          (fun l hl => hne l (List.mem_cons_of_mem _ hl))
          (by
            rw [List.flatten_cons, List.pairwise_append] at hsort
            exact hsort.2.1)
        rw [List.map_cons] at this
        exact this

/-- Claim C1: for at least 5 cues sorted by start time, the automatic
splitter's blocks are ordered by non-decreasing `start_time`, and the
concatenation of the blocks' `subtitles` lists is exactly the input cue
sequence — every cue in exactly one block, none duplicated, none dropped
(in particular the final block is emitted even below
`min_block_duration`). -/
theorem C1_partition_and_order (env : TitleEnv) (subs : List Cue)
    (d p : ℚ) (m : Nat) (h5 : 5 ≤ subs.length)
    (hsort : List.Pairwise (fun a b : Cue => a.start ≤ b.start) subs) :
    ((analyze_subtitles_into_blocks env subs d p m).map Block.subtitles).flatten
      = subs ∧
    List.Chain' (· ≤ ·)
      ((analyze_subtitles_into_blocks env subs d p m).map Block.start_time) := by
  have hne : subs ≠ [] := by
    intro h
    rw [h] at h5
    simp at h5
  unfold analyze_subtitles_into_blocks
  rw [if_neg (by omega)]
  have hmap : (enhanced_keyword_titles env
        (analyzeLoop d p m subs [] "")).map blockCore
      = (analyzeLoop d p m subs [] "").map blockCore :=
    titleBlocks_map_blockCore _ 0 _
  have hjoin : ((analyzeLoop d p m subs [] "").map Block.subtitles).flatten
      = subs := by
    rw [analyzeLoop_join d p m subs [] "" hne]
    rfl
  have hfacts := analyzeLoop_block_facts d p m subs [] "" rfl
  constructor
  · rw [map_subtitles_of_map_blockCore hmap, hjoin]
  · rw [map_start_of_map_blockCore hmap]
    have hLs : List.Chain' (· ≤ ·)
        (((analyzeLoop d p m subs [] "").map Block.subtitles).map firstStart) := by
      apply chain'_firstStart_of_sorted_flatten
      · intro l hl
        rw [List.mem_map] at hl
        obtain ⟨b, hb, rfl⟩ := hl
        exact (hfacts b hb).1
      · rw [hjoin]
        exact hsort
    rw [List.map_map] at hLs
    have hcongr : (analyzeLoop d p m subs [] "").map (firstStart ∘ Block.subtitles)
        = (analyzeLoop d p m subs [] "").map Block.start_time :=
      List.map_congr_left fun b hb => ((hfacts b hb).2.1).symm
    rwa [hcongr] at hLs

/-- Witness for C1 on five sorted cues. -/
theorem C1_partition_and_order_witness :
    5 ≤ fiveCues.length ∧
    List.Pairwise (fun a b : Cue => a.start ≤ b.start) fiveCues ∧
    (((analyze_subtitles_into_blocks envTrivial fiveCues 60 3 25).map
        Block.subtitles).flatten = fiveCues ∧
    List.Chain' (· ≤ ·)
      ((analyze_subtitles_into_blocks envTrivial fiveCues 60 3 25).map
        Block.start_time)) :=
  ⟨by decide, by norm_num [fiveCues, List.Pairwise],
    C1_partition_and_order envTrivial fiveCues 60 3 25 (by decide)
      (by norm_num [fiveCues, List.Pairwise])⟩

/-- In a strictly start-sorted non-empty cue list, every cue starts at or
after the first one. -/
theorem firstStart_le_of_sorted {l : List Cue}
    (hs : List.Pairwise (fun a b : Cue => a.start < b.start) l) :
    ∀ x ∈ l, firstStart l ≤ x.start := by
  cases l with
  | nil => intro x hx; simp at hx
  | cons a rest =>
    intro x hx
    rw [List.mem_cons] at hx
    rcases hx with rfl | hx
    · simp [firstStart]
    · exact le_of_lt ((List.pairwise_cons.mp hs).1 x hx)

/-- In a strictly start-sorted cue list, every cue starts no later than
the last one. -/
theorem le_getLast_start_of_sorted :
    ∀ {l : List Cue},
      List.Pairwise (fun a b : Cue => a.start < b.start) l →
      ∀ x ∈ l, ∀ c ∈ l.getLast?, x.start ≤ c.start
  | [], _, x, hx => by simp at hx
  | [a], _, x, hx => by
      intro c hc
      simp only [List.mem_singleton] at hx
      simp only [List.getLast?_singleton, Option.mem_def, Option.some.injEq] at hc
      subst hx
      subst hc
      exact le_rfl
  | a :: b :: rest, hs, x, hx => by
      intro c hc
      have hc' : c ∈ (b :: rest).getLast? := by
        simpa using hc
      rw [List.mem_cons] at hx
      rcases hx with rfl | hx
      · have hcm : c ∈ b :: rest :=
          (List.mem_getLast?_eq_getLast hc').elim fun h he =>
            he ▸ List.getLast_mem h
        exact le_of_lt ((List.pairwise_cons.mp hs).1 c hcm)
      · exact le_getLast_start_of_sorted (List.pairwise_cons.mp hs).2 x hx c hc'

/-- In a strictly start-sorted cue list with non-negative durations,
every cue starts no later than the list's `lastEnd`. -/
theorem le_lastEnd_of_sorted {l : List Cue}
    (hs : List.Pairwise (fun a b : Cue => a.start < b.start) l)
    (hd : ∀ c ∈ l, 0 ≤ c.duration.getD 5) :
    ∀ x ∈ l, x.start ≤ lastEnd l := by
  intro x hx
  have hne : l ≠ [] := List.ne_nil_of_mem hx
  have hlast : l.getLast? = some (l.getLast hne) := List.getLast?_eq_getLast l hne
  have h₁ : x.start ≤ (l.getLast hne).start :=
    le_getLast_start_of_sorted hs x hx _ (by rw [hlast]; rfl)
  have h₂ : 0 ≤ (l.getLast hne).duration.getD 5 :=
    hd _ (List.getLast_mem hne)
  calc x.start ≤ (l.getLast hne).start := h₁
    _ ≤ (l.getLast hne).start + (l.getLast hne).duration.getD 5 := by linarith
    _ = lastEnd l := by rw [lastEnd, hlast]; rfl

/-- The head of a flattened list of segments whose first segment is
non-empty. -/
theorem firstStart_flatten_cons {l : List Cue} {Ls : List (List Cue)}
    (h : l ≠ []) : firstStart ((l :: Ls).flatten) = firstStart l := by
  obtain ⟨a, l', rfl⟩ := List.exists_cons_of_ne_nil h
  simp [firstStart]

/-- Under strict sorting, separated segments capture exactly their own
cues: filtering the whole flat list by a segment's time bounds (both ends
inclusive) returns that segment. -/
theorem filter_eq_of_separated :
    ∀ (Ls : List (List Cue)),
      (∀ l ∈ Ls, l ≠ []) →
      List.Pairwise (fun a b : Cue => a.start < b.start) Ls.flatten →
      (∀ c ∈ Ls.flatten, 0 ≤ c.duration.getD 5) →
      List.Chain' (fun l l' => lastEnd l < firstStart l') Ls →
      ∀ l ∈ Ls,
        Ls.flatten.filter
          (fun s => decide (s.start ≥ firstStart l)
            && decide (s.start ≤ lastEnd l)) = l
  | [], _, _, _, _ => by simp
  | l₀ :: rest, hne, hsort, hdur, hsep => by
      intro l hl
      rw [List.flatten_cons] at hsort hdur ⊢
      rw [List.pairwise_append] at hsort
      obtain ⟨hs₀, hsrest, hcross⟩ := hsort
      rw [List.filter_append]
      rw [List.mem_cons] at hl
      rcases hl with rfl | hl
      · have hown : l.filter
            (fun s => decide (s.start ≥ firstStart l)
              && decide (s.start ≤ lastEnd l)) = l := by
          apply List.filter_eq_self.mpr
          intro x hx
          rw [Bool.and_eq_true, decide_eq_true_eq, decide_eq_true_eq]
          exact ⟨firstStart_le_of_sorted hs₀ x hx,
            le_lastEnd_of_sorted hs₀ (fun c hc => hdur c (by simp [hc])) x hx⟩
        have hrest0 : rest.flatten.filter
            (fun s => decide (s.start ≥ firstStart l)
              && decide (s.start ≤ lastEnd l)) = [] := by
          apply List.filter_eq_nil.mpr
          intro y hy
          rw [Bool.and_eq_true, decide_eq_true_eq, decide_eq_true_eq]
          rintro ⟨-, hy₂⟩
          cases hrest : rest with
          | nil =>
            subst hrest
            simp at hy
          | cons l₁ rest' =>
            subst hrest
            have hsep₁ : lastEnd l < firstStart l₁ :=
              (List.chain'_cons.mp hsep).1
            have hfl : firstStart ((l₁ :: rest').flatten) = firstStart l₁ :=
              firstStart_flatten_cons (hne l₁ (by simp))
            have hylb : firstStart l₁ ≤ y.start := by
              rw [← hfl]
              exact firstStart_le_of_sorted hsrest y hy
            linarith
        rw [hown, hrest0, List.append_nil]
      · have hfirst0 : l₀.filter
            (fun s => decide (s.start ≥ firstStart l)
              && decide (s.start ≤ lastEnd l)) = [] := by
          apply List.filter_eq_nil.mpr
          intro x hx
          rw [Bool.and_eq_true, decide_eq_true_eq, decide_eq_true_eq]
          rintro ⟨hx₁, -⟩
          have hlne : l ≠ [] := hne l (by simp [hl])
          obtain ⟨a, l', rfl⟩ := List.exists_cons_of_ne_nil hlne
          have ham : a ∈ rest.flatten := List.mem_flatten.mpr ⟨a :: l', hl, by simp⟩
          have : x.start < a.start := hcross x hx a ham
          have : x.start < firstStart (a :: l') := by
            simpa [firstStart] using this
          have hge : firstStart (a :: l') ≤ x.start := hx₁
          linarith
        rw [hfirst0, List.nil_append]
        exact filter_eq_of_separated rest
          (fun l' hl' => hne l' (by simp [hl']))
          hsrest (fun c hc => hdur c (by simp [hc])) hsep.tail l hl

/-- A strip-invariant character list sheds no characters on either
side. -/
theorem strip_inv_parts {l : List Char} (h : stripChars l = l) :
    l.dropWhile Char.isWhitespace = l ∧
    l.reverse.dropWhile Char.isWhitespace = l.reverse := by
  have hlen : (stripChars l).length = l.length := by rw [h]
  have h₁ : (l.dropWhile Char.isWhitespace).length ≤ l.length :=
    (List.dropWhile_suffix _).sublist.length_le
  have h₂ : ((l.dropWhile Char.isWhitespace).reverse.dropWhile
      Char.isWhitespace).length ≤ (l.dropWhile Char.isWhitespace).length := by
    calc ((l.dropWhile Char.isWhitespace).reverse.dropWhile
            Char.isWhitespace).length
        ≤ (l.dropWhile Char.isWhitespace).reverse.length :=
          (List.dropWhile_suffix _).sublist.length_le
      _ = (l.dropWhile Char.isWhitespace).length := List.length_reverse _
  have hstrip : (stripChars l).length
      = ((l.dropWhile Char.isWhitespace).reverse.dropWhile
          Char.isWhitespace).length := by
    rw [stripChars, List.length_reverse]
  have e₁ : (l.dropWhile Char.isWhitespace).length = l.length := by omega
  have hdrop : l.dropWhile Char.isWhitespace = l :=
    (List.dropWhile_suffix _).eq_of_length e₁
  refine ⟨hdrop, ?_⟩
  have e₂ : ((l.reverse).dropWhile Char.isWhitespace).length
      = l.reverse.length := by
    rw [hdrop] at hstrip
    rw [List.length_reverse]
    omega
  exact (List.dropWhile_suffix _).eq_of_length e₂

/-- Dropping leading whitespace does nothing when the first character is
not whitespace. -/
theorem dropWhile_ws_eq_self_of_head {l : List Char} {c : Char}
    (hc : l.head? = some c) (hws : ¬ c.isWhitespace) :
    l.dropWhile Char.isWhitespace = l := by
  cases l with
  | nil => simp at hc
  | cons a as =>
    rw [List.head?_cons, Option.some.injEq] at hc
    subst hc
    rw [List.dropWhile_cons_of_neg]
    simpa using hws

/-- The character data of a space-join starts with the first part's first
character. -/
theorem head?_pyJoin_space (t : String) (ts : List String)
    (h : t.data ≠ []) :
    (pyJoin " " (t :: ts)).data.head? = t.data.head? := by
  cases ts with
  | nil => rfl
  | cons u us =>
    show ((t ++ " " ++ pyJoin " " (u :: us)).data).head? = t.data.head?
    rw [String.data_append, String.data_append]
    rw [List.append_assoc]
    cases hd : t.data with
    | nil => exact absurd hd h
    | cons c cs => simp [hd]

/-- A space-join of parts whose first part is non-empty has non-empty
data. -/
theorem pyJoin_space_ne_nil (t : String) (ts : List String)
    (h : t.data ≠ []) : (pyJoin " " (t :: ts)).data ≠ [] := by
  intro hcon
  have := head?_pyJoin_space t ts h
  rw [hcon] at this
  cases hd : t.data with
  | nil => exact absurd hd h
  | cons c cs =>
    rw [hd] at this
    simp at this

/-- The character data of a space-join ends with the last part's last
character. -/
theorem getLast?_pyJoin_space :
    ∀ (ts : List String), (∀ u ∈ ts, u.data ≠ []) →
      ∀ t ∈ ts.getLast?, (pyJoin " " ts).data.getLast? = t.data.getLast?
  | [], _, t => by simp
  | [u], _, t => by
      intro ht
      simp only [List.getLast?_singleton, Option.mem_def, Option.some.injEq] at ht
      subst ht
      rfl
  | u :: v :: us, hne, t => by
      intro ht
      have ht' : t ∈ (v :: us).getLast? := by simpa using ht
      show ((u ++ " " ++ pyJoin " " (v :: us)).data).getLast? = t.data.getLast?
      rw [String.data_append, String.data_append, List.append_assoc]
      rw [List.getLast?_append_of_ne_nil]
      · rw [List.getLast?_append_of_ne_nil]
        · exact getLast?_pyJoin_space (v :: us)
            (fun w hw => hne w (List.mem_cons_of_mem u hw)) t ht'
        · exact pyJoin_space_ne_nil v us (hne v (by simp))
      · intro hcon
        rw [List.append_eq_nil] at hcon
        exact pyJoin_space_ne_nil v us (hne v (by simp)) hcon.2

/-- Folding the text accumulator from any initial string prepends that
string. -/
theorem spaceConcat_foldl_init (ts : List String) :
    ∀ init : String,
      ts.foldl (fun acc t => acc ++ " " ++ t) init = init ++ spaceConcat ts := by
  induction ts with
  | nil => intro init; simp [spaceConcat, String.append_empty]
  | cons u us ih =>
    intro init
    show us.foldl _ (init ++ " " ++ u) = init ++ spaceConcat (u :: us)
    rw [ih (init ++ " " ++ u)]
    have hsc : spaceConcat (u :: us) = ("" ++ " " ++ u) ++ spaceConcat us := by
      show us.foldl _ ("" ++ " " ++ u) = _
      rw [ih ("" ++ " " ++ u)]
    rw [hsc, String.empty_append]
    simp [String.append_assoc]

/-- The accumulated block text is a leading space followed by the
space-join of the texts. -/
theorem spaceConcat_eq_space_join :
    ∀ (ts : List String), ts ≠ [] →
      spaceConcat ts = " " ++ pyJoin " " ts
  | [], h => absurd rfl h
  | [u], _ => by
      show [u].foldl _ "" = " " ++ u
      simp [String.empty_append]
  | u :: v :: us, _ => by
      show (v :: us).foldl _ ("" ++ " " ++ u) = " " ++ (u ++ " " ++ pyJoin " " (v :: us))
      rw [spaceConcat_foldl_init (v :: us) ("" ++ " " ++ u), String.empty_append]
      rw [spaceConcat_eq_space_join (v :: us) (by simp)]
      simp [String.append_assoc]

/-- For cues with non-empty, strip-invariant texts, stripping the
accumulated loop text gives exactly the space-join the reload performs. -/
theorem pyStrip_spaceConcat (l : List Cue) (hne : l ≠ [])
    (htext : ∀ c ∈ l, cueText c ≠ "" ∧ pyStrip (cueText c) = cueText c) :
    pyStrip (spaceConcat (l.map cueText)) = pyJoin " " (l.map cueText) := by
  obtain ⟨c₀, l', rfl⟩ := List.exists_cons_of_ne_nil hne
  set ts := (c₀ :: l').map cueText with hts
  have htsne : ∀ u ∈ ts, u.data ≠ [] ∧ stripChars u.data = u.data := by
    intro u hu
    rw [hts, List.mem_map] at hu
    obtain ⟨c, hc, rfl⟩ := hu
    obtain ⟨hu₁, hu₂⟩ := htext c hc
    constructor
    · intro hud
      apply hu₁
      apply String.ext
      rw [hud]
    · have := congrArg String.data hu₂
      simpa [pyStrip] using this
  have hts0 : (cueText c₀).data ≠ [] := (htsne (cueText c₀) (by simp [hts])).1
  rw [spaceConcat_eq_space_join ts (by simp [hts])]
  -- data of the left-hand side
  apply String.ext
  show stripChars ((" " ++ pyJoin " " ts).data) = (pyJoin " " ts).data
  rw [String.data_append]
  have hspace : (" " : String).data = [' '] := rfl
  rw [hspace]
  set jd := (pyJoin " " ts).data with hjd
  -- the join starts with a non-whitespace character
  obtain ⟨ch, hch⟩ : ∃ ch, jd.head? = some ch ∧ ¬ ch.isWhitespace := by
    have hh : jd.head? = (cueText c₀).data.head? := by
      rw [hjd, hts]
      exact head?_pyJoin_space (cueText c₀) (l'.map cueText) hts0
    obtain ⟨a, as, ha⟩ := List.exists_cons_of_ne_nil hts0
    have hhead : (cueText c₀).data.head? = some a := by rw [ha]; rfl
    refine ⟨a, by rw [hh, hhead], ?_⟩
    have hstrip := (htsne (cueText c₀) (by simp [hts])).2
    have := (strip_inv_parts hstrip).1
    rw [ha] at this
    intro hws
    rw [List.dropWhile_cons_of_pos (by simpa using hws)] at this
    have hlen : (List.dropWhile Char.isWhitespace as).length ≤ as.length :=
      (List.dropWhile_suffix _).sublist.length_le
    rw [this] at hlen
    simp at hlen
  -- the join ends with a non-whitespace character
  have hlastok : jd.reverse.dropWhile Char.isWhitespace = jd.reverse := by
    have hlne : ts.getLast? = some (ts.getLast (by simp [hts])) :=
      List.getLast?_eq_getLast _ _
    have hlmem : ts.getLast (by simp [hts]) ∈ ts := List.getLast_mem _
    have hlast := getLast?_pyJoin_space ts (fun u hu => (htsne u hu).1)
      (ts.getLast (by simp [hts])) (by rw [hlne]; rfl)
    have hlinv := (strip_inv_parts ((htsne _ hlmem).2)).2
    have hlne' : (ts.getLast (by simp [hts])).data ≠ [] := (htsne _ hlmem).1
    -- the last character of the join is the last character of the last part
    have hrevhead : jd.reverse.head? =
        ((ts.getLast (by simp [hts])).data).reverse.head? := by
      rw [List.head?_reverse, List.head?_reverse, hjd]
      exact hlast
    obtain ⟨b, bs, hb⟩ :=
      List.exists_cons_of_ne_nil
        (show ((ts.getLast (by simp [hts])).data).reverse ≠ [] by
          simpa using hlne')
    have hbws : ¬ b.isWhitespace := by
      intro hws
      rw [hb] at hlinv
      rw [List.dropWhile_cons_of_pos (by simpa using hws)] at hlinv
      have hlen : (List.dropWhile Char.isWhitespace bs).length ≤ bs.length :=
        (List.dropWhile_suffix _).sublist.length_le
      rw [hlinv] at hlen
      simp at hlen
    cases hrev : jd.reverse with
    | nil => rfl
    | cons d ds =>
      have : some d = some b := by
        rw [← List.head?_cons (l := ds), ← hrev, hrevhead, hb]
        rfl
      rw [Option.some.injEq] at this
      subst this
      rw [List.dropWhile_cons_of_neg]
      simpa using hbws
  show stripChars (' ' :: jd) = jd
  rw [stripChars]
  rw [List.dropWhile_cons_of_pos (by decide)]
  rw [dropWhile_ws_eq_self_of_head hch.1 hch.2]
  rw [hlastok, List.reverse_reverse]

/-- The reload of serialized metadata, projected to `content_text`, is a
per-block re-filter of the transcript with an inclusive upper bound. -/
theorem load_metadata_map_content (subs : List Cue) (P : List Block) :
    (load_blocks_from_metadata subs (blocks_metadata P)).map Block.content_text
      = P.map fun b =>
          pyJoin " "
            ((subs.filter fun s =>
                decide (s.start ≥ b.start_time)
                  && decide (s.start ≤ b.end_time)).map cueText) := by
  unfold load_blocks_from_metadata blocks_metadata
  rw [List.map_map, List.map_map]
  rfl

/-- Lists with equal `blockCore` images match member-wise on cores. -/
theorem mem_blockCore_transfer {P A : List Block}
    (h : P.map blockCore = A.map blockCore) :
    ∀ b ∈ P, ∃ a ∈ A, blockCore a = blockCore b := by
  intro b hb
  have hmem : blockCore b ∈ A.map blockCore := by
    rw [← h]
    exact List.mem_map_of_mem _ hb
  rw [List.mem_map] at hmem
  exact hmem

/-- Every chapter-derived block's text is the space-join of the cues
matched by its own bounds (exclusive at the upper end). -/
theorem mem_chapter_blocks_content (env : TitleEnv) (chapters : List Chapter)
    (subs : List Cue) (minDur : ℚ) (hch : chapters ≠ []) :
    ∀ b ∈ analyze_subtitles_into_blocks_with_chapters env chapters subs minDur,
      b.content_text
        = pyJoin " " ((chapterCues subs b.start_time b.end_time).map cueText) := by
  intro b hb
  unfold analyze_subtitles_into_blocks_with_chapters at hb
  by_cases hs : subs = []
  · rw [if_pos hs] at hb
    simp at hb
  · rw [if_neg hs, if_pos hch] at hb
    rw [List.mem_filterMap] at hb
    obtain ⟨ch, -, hcb⟩ := hb
    simp only [chapterBlock] at hcb
    split at hcb
    · cases hcb
      rfl
    · cases hcb

/-- Claim C9 (amended): re-filtering the original transcript against the
persisted block bounds reproduces each block's `content_text` only under
side conditions, because the reload filter (interface.py line 224) is
inclusive at the upper bound while block construction is not.
Part one: for a chapter-derived session it holds provided no cue starts
exactly at a block's `end_time`.  Part two: for an automatically split
session (at least 5 cues) it holds provided cue starts are strictly
increasing, durations are non-negative, cue texts are non-empty and carry
no edge whitespace, and consecutive emitted blocks are separated in time
(next block's `start_time` strictly after the previous `end_time`, as a
pause-triggered split guarantees).  Without these conditions the claim
fails (see the counterexample, where a cue on the chapter boundary is
re-included into the earlier block). -/
theorem C9_roundtrip_content :
    (∀ (env : TitleEnv) (chapters : List Chapter) (subs : List Cue),
      chapters ≠ [] → subs ≠ [] →
      (∀ b ∈ process_subtitles_with_blocks env chapters subs,
        ∀ s ∈ subs, s.start ≠ b.end_time) →
      (load_blocks_from_metadata subs
          (blocks_metadata (process_subtitles_with_blocks env chapters subs))).map
            Block.content_text
        = (process_subtitles_with_blocks env chapters subs).map
            Block.content_text) ∧
    (∀ (env : TitleEnv) (subs : List Cue),
      5 ≤ subs.length →
      List.Pairwise (fun a b : Cue => a.start < b.start) subs →
      (∀ c ∈ subs, 0 ≤ c.duration.getD 5) →
      (∀ c ∈ subs, cueText c ≠ "" ∧ pyStrip (cueText c) = cueText c) →
      List.Chain' (fun b b' : Block => b.end_time < b'.start_time)
        (process_subtitles_with_blocks env [] subs) →
      (load_blocks_from_metadata subs
          (blocks_metadata (process_subtitles_with_blocks env [] subs))).map
            Block.content_text
        = (process_subtitles_with_blocks env [] subs).map
            Block.content_text) := by
  constructor
  · intro env chapters subs hch hsubs hbnd
    rw [load_metadata_map_content]
    apply List.map_congr_left
    intro b hb
    have hcore := process_map_blockCore env chapters subs
    obtain ⟨a, ha, hEq⟩ := mem_blockCore_transfer hcore b hb
    have hc := mem_chapter_blocks_content env chapters subs 60 hch a ha
    simp only [blockCore, Prod.mk.injEq] at hEq
    obtain ⟨h1, h2, h3, h4, h5⟩ := hEq
    rw [← h4, hc, h1, h2]
    congr 1
    congr 1
    unfold chapterCues
    apply List.filter_congr
    intro s hs
    have hne := hbnd b hb s hs
    have hiff : (s.start ≤ b.end_time) = (s.start < b.end_time) := by
      apply propext
      constructor
      · intro hle
        exact lt_of_le_of_ne hle hne
      · exact le_of_lt
    simp only [hiff]
  · intro env subs h5 hsort hdur htext hsep
    have hsubs : subs ≠ [] := by
      intro h
      rw [h] at h5
      simp at h5
    have hA : analyze_subtitles_into_blocks_with_chapters env [] subs 60
        = enhanced_keyword_titles env (analyzeLoop 60 3 25 subs [] "") := by
      unfold analyze_subtitles_into_blocks_with_chapters
      rw [if_neg hsubs, if_neg (by simp)]
      unfold analyze_subtitles_into_blocks
      rw [if_neg (by omega)]
    have hcore : (process_subtitles_with_blocks env [] subs).map blockCore
        = (analyzeLoop 60 3 25 subs [] "").map blockCore := by
      rw [process_map_blockCore, hA]
      exact titleBlocks_map_blockCore _ 0 _
    have hfacts := analyzeLoop_block_facts 60 3 25 subs [] "" rfl
    have hjoin : ((analyzeLoop 60 3 25 subs [] "").map Block.subtitles).flatten
        = subs := by
      rw [analyzeLoop_join 60 3 25 subs [] "" hsubs]
      rfl
    have hPf : (process_subtitles_with_blocks env [] subs).map
          (fun b => (b.start_time, b.end_time))
        = (analyzeLoop 60 3 25 subs [] "").map
            (fun b => (b.start_time, b.end_time)) := by
      have h₂ := congrArg
        (List.map fun q : ℚ × ℚ × List Cue × String × Bool => (q.1, q.2.1)) hcore
      simpa only [List.map_map] using h₂
    have hchain : List.Chain' (fun x y : ℚ × ℚ => x.2 < y.1)
        ((process_subtitles_with_blocks env [] subs).map
          fun b => (b.start_time, b.end_time)) :=
      (List.chain'_map _).mpr hsep
    rw [hPf] at hchain
    have hLpair : (analyzeLoop 60 3 25 subs [] "").map
          (fun b => (b.start_time, b.end_time))
        = ((analyzeLoop 60 3 25 subs [] "").map Block.subtitles).map
            (fun l => (firstStart l, lastEnd l)) := by
      rw [List.map_map]
      apply List.map_congr_left
      intro bb hbb
      have hf := hfacts bb hbb
      show (bb.start_time, bb.end_time) = _
      rw [hf.2.1, hf.2.2.1]
      rfl
    rw [hLpair] at hchain
    have hsegsep := (List.chain'_map _).mp hchain
    have hFE := filter_eq_of_separated
      ((analyzeLoop 60 3 25 subs [] "").map Block.subtitles)
      (fun l hl => by
        obtain ⟨bb, hbb, rfl⟩ := List.mem_map.mp hl
        exact (hfacts bb hbb).1)
      (by rw [hjoin]; exact hsort)
      (by rw [hjoin]; exact hdur)
      hsegsep
    rw [load_metadata_map_content]
    apply List.map_congr_left
    intro b hb
    obtain ⟨bb, hbb, hEq⟩ := mem_blockCore_transfer hcore b hb
    simp only [blockCore, Prod.mk.injEq] at hEq
    obtain ⟨h1, h2, h3, h4, h5'⟩ := hEq
    have hf := hfacts bb hbb
    have hfb : (subs.filter fun s =>
        decide (s.start ≥ b.start_time) && decide (s.start ≤ b.end_time))
        = bb.subtitles := by
      have hthis := hFE bb.subtitles (List.mem_map_of_mem _ hbb)
      rw [hjoin] at hthis
      rw [← h1, ← h2, hf.2.1, hf.2.2.1]
      exact hthis
    rw [hfb, ← h4, hf.2.2.2]
    exact (pyStrip_spaceConcat bb.subtitles hf.1
      (fun c hc => htext c (by
        rw [← hjoin]
        exact List.mem_flatten.mpr
          ⟨bb.subtitles, List.mem_map_of_mem _ hbb, hc⟩))).symm

/-- Evaluation of the chapter splitter on the two contiguous chapters
`[0,10)`, `[10,20)` with a cue exactly on the boundary 10. -/
theorem chaptersAB_eval :
    analyze_subtitles_into_blocks_with_chapters envTrivial chaptersAB cuesAB 60
      = [Block.mk 0 10 [⟨0, some 5, some "hello"⟩] "hello" "Alpha" false,
         Block.mk 10 20 [⟨10, some 5, some "bye"⟩] "bye" "Beta" false] := by
  unfold analyze_subtitles_into_blocks_with_chapters
  rw [if_neg (by simp [cuesAB]), if_pos (by simp [chaptersAB])]
  norm_num [chaptersAB, cuesAB, resolveChapterEnds, chapterBlock,
    chapterCues, pyJoin, cueText, List.filterMap_cons, List.filter_cons]

/-- Evaluation of the full processing pass on the boundary-cue
example. -/
theorem processAB_eval :
    process_subtitles_with_blocks envTrivial chaptersAB cuesAB
      = [Block.mk 0 10 [⟨0, some 5, some "hello"⟩] "hello" "Alpha" false,
         Block.mk 10 20 [⟨10, some 5, some "bye"⟩] "bye" "Beta" false] := by
  unfold process_subtitles_with_blocks
  rw [chaptersAB_eval]
  decide

/-- Claim C9 fails as stated: with chapters `[0,10)` and `[10,20)` and a
cue starting exactly at 10, the reload filter (inclusive upper bound)
pulls the boundary cue back into the first block, whose reconstructed
`content_text` becomes `"hello bye"` instead of `"hello"`. -/
theorem C9_counterexample :
    ¬ ((load_blocks_from_metadata cuesAB
          (blocks_metadata (process_subtitles_with_blocks envTrivial
            chaptersAB cuesAB))).map Block.content_text
        = (process_subtitles_with_blocks envTrivial chaptersAB cuesAB).map
            Block.content_text) := by
  intro hcon
  rw [processAB_eval] at hcon
  have hload : (load_blocks_from_metadata cuesAB
      (blocks_metadata
        [Block.mk 0 10 [⟨0, some 5, some "hello"⟩] "hello" "Alpha" false,
         Block.mk 10 20 [⟨10, some 5, some "bye"⟩] "bye" "Beta" false])).map
      Block.content_text = ["hello bye", "bye"] := by
    norm_num [load_blocks_from_metadata, blocks_metadata, cuesAB,
      List.filter_cons, pyJoin, cueText]
    decide
  rw [hload] at hcon
  have hmap : ([Block.mk 0 10 [⟨0, some 5, some "hello"⟩] "hello" "Alpha" false,
      Block.mk 10 20 [⟨10, some 5, some "bye"⟩] "bye" "Beta" false]).map
      Block.content_text = ["hello", "bye"] := rfl
  rw [hmap] at hcon
  exact absurd hcon (by decide)

/-- Evaluation of the full processing pass on one chapter with one
matching cue. -/
theorem processIntro_eval :
    process_subtitles_with_blocks envTrivial chaptersIntro cuesX
      = [Block.mk 0 10 cuesX "x" "Introduction" false] := by
  unfold process_subtitles_with_blocks
  rw [chaptersIntro_eval]
  decide

/-- Evaluation of the splitter loop on the five contiguous cues: one
block, closed by the forced final close. -/
theorem fiveCues_loop_eval :
    analyzeLoop 60 3 25 fiveCues [] ""
      = [Block.mk 0 5 fiveCues "a b c d e" "" false] := by
  have hstr : pyStrip (" " ++ "a" ++ " " ++ "b" ++ " " ++ "c" ++ " "
      ++ "d" ++ " " ++ "e") = "a b c d e" := by decide
  norm_num [analyzeLoop, should_split, fiveCues, firstStart, lastEnd, cueEnd,
    hstr]

/-- Evaluation of the full processing pass on the five contiguous cues
(no chapters). -/
theorem processFive_eval :
    process_subtitles_with_blocks envTrivial [] fiveCues
      = [Block.mk 0 5 fiveCues "a b c d e" (mkEnhancedTitle envTrivial 0 "a b c d e")
          false] := by
  unfold process_subtitles_with_blocks
  have hA : analyze_subtitles_into_blocks_with_chapters envTrivial [] fiveCues 60
      = enhanced_keyword_titles envTrivial (analyzeLoop 60 3 25 fiveCues [] "") := by
    unfold analyze_subtitles_into_blocks_with_chapters
    rw [if_neg (by simp [fiveCues]), if_neg (by simp)]
    unfold analyze_subtitles_into_blocks
    rw [if_neg (by simp [fiveCues])]
  rw [hA, fiveCues_loop_eval]
  decide

/-- Witness for the amended C9: the chapter part on one chapter with a
non-boundary cue, and the automatic part on five contiguous cues. -/
theorem C9_roundtrip_content_witness :
    (chaptersIntro ≠ [] ∧ cuesX ≠ [] ∧
      (∀ b ∈ process_subtitles_with_blocks envTrivial chaptersIntro cuesX,
        ∀ s ∈ cuesX, s.start ≠ b.end_time) ∧
      (load_blocks_from_metadata cuesX
          (blocks_metadata (process_subtitles_with_blocks envTrivial
            chaptersIntro cuesX))).map Block.content_text
        = (process_subtitles_with_blocks envTrivial chaptersIntro cuesX).map
            Block.content_text) ∧
    (5 ≤ fiveCues.length ∧
      List.Pairwise (fun a b : Cue => a.start < b.start) fiveCues ∧
      (∀ c ∈ fiveCues, 0 ≤ c.duration.getD 5) ∧
      (∀ c ∈ fiveCues, cueText c ≠ "" ∧ pyStrip (cueText c) = cueText c) ∧
      List.Chain' (fun b b' : Block => b.end_time < b'.start_time)
        (process_subtitles_with_blocks envTrivial [] fiveCues) ∧
      (load_blocks_from_metadata fiveCues
          (blocks_metadata (process_subtitles_with_blocks envTrivial []
            fiveCues))).map Block.content_text
        = (process_subtitles_with_blocks envTrivial [] fiveCues).map
            Block.content_text) := by
  have hbnd : ∀ b ∈ process_subtitles_with_blocks envTrivial chaptersIntro cuesX,
      ∀ s ∈ cuesX, s.start ≠ b.end_time := by
    intro b hb s hs
    rw [processIntro_eval, List.mem_singleton] at hb
    subst hb
    simp only [cuesX, List.mem_singleton] at hs
    subst hs
    norm_num
  have hpair : List.Pairwise (fun a b : Cue => a.start < b.start) fiveCues := by
    norm_num [fiveCues, List.Pairwise]
  have hdur : ∀ c ∈ fiveCues, 0 ≤ c.duration.getD 5 := by decide
  have htext : ∀ c ∈ fiveCues, cueText c ≠ "" ∧ pyStrip (cueText c) = cueText c := by
    decide
  have hsep : List.Chain' (fun b b' : Block => b.end_time < b'.start_time)
      (process_subtitles_with_blocks envTrivial [] fiveCues) := by
    rw [processFive_eval]
    exact List.chain'_singleton _
  exact ⟨⟨by simp [chaptersIntro], by simp [cuesX], hbnd,
      C9_roundtrip_content.1 envTrivial chaptersIntro cuesX
        (by simp [chaptersIntro]) (by simp [cuesX]) hbnd⟩,
    ⟨by decide, hpair, hdur, htext, hsep,
      C9_roundtrip_content.2 envTrivial fiveCues (by decide) hpair hdur htext
        hsep⟩⟩
